import Mathlib

/-!
Shallow embedding of the sling rebalancing plugin's core
(`src/lib.rs` and `src/model.rs`): the job model (`SatDirection`,
`Job.target_cap`, `Job.is_balanced`), the liquidity graph (`LnGraph`
with `update`, `refresh_liquidity`, `edges`), the per-job state machine
(`JobState`), and the success-ledger serialization
(`SuccessReb.write_to_file` / `read_from_file`).

Modelling conventions:
* machine integers (`u64`, `u32`, `u8`) are modelled as `Nat`; `u64`
  subtraction is modelled by truncated `Nat` subtraction, and theorems
  whose meaning depends on a subtraction carry explicit no-underflow
  hypotheses matching the code's implicit preconditions;
* the `f64` target ratio is modelled as an exact rational; the Rust
  `as u64` cast of a non-negative float is modelled as
  `Int.floor`-then-`Int.toNat` (truncation toward zero, clamped at 0);
* `PublicKey` is an abstract identifier; `ShortChannelId` is modelled by
  its `to_string()` rendering, because the code only ever compares the
  rendered strings;
* `BTreeMap`/`HashMap`/`HashSet` are modelled as association lists /
  lists queried by `List.lookup` / membership;
* fallible operations (Rust `unwrap` panics, `Result`-returning
  functions) return `Option`;
* `SystemTime::now()` is an external input and appears as an explicit
  `now : Nat` argument.
-/

namespace Sling

/-- Rust `PublicKey` (a secp256k1 point), modelled as an abstract
identifier compared by value, exactly as the code compares it. -/
abbrev PublicKey := Nat

/-- Rust `ShortChannelId`.  Every comparison in `model.rs` goes through
`to_string()`, so the identifier is modelled by that rendered string. -/
abbrev ShortChannelId := String

/-- `SatDirection` from `lib.rs`: the direction of a rebalancing job. -/
inductive SatDirection where
  | Pull
  | Push
deriving DecidableEq, Repr

/-- `FromStr for SatDirection` in `lib.rs`: only the literal strings
`"pull"` and `"push"` parse; anything else is an error (`none`). -/
def SatDirection.from_str (s : String) : Option SatDirection :=
  if s = "pull" then some SatDirection.Pull
  else if s = "push" then some SatDirection.Push
  else none

/-- `Display for SatDirection` in `lib.rs`. -/
def SatDirection.display : SatDirection → String
  | SatDirection.Pull => "pull"
  | SatDirection.Push => "push"

/-- The `Job` specification from `lib.rs`.  The `f64` fields `target`
and `depleteuptopercent` are modelled as exact rationals. -/
structure Job where
  sat_direction : SatDirection
  amount : Nat
  outppm : Option Nat
  maxppm : Nat
  candidatelist : Option (List ShortChannelId)
  target : Option ℚ
  maxhops : Option Nat
  depleteuptopercent : Option ℚ
  depleteuptoamount : Option Nat
  paralleljobs : Option Nat
deriving DecidableEq

/-- The fields of `cln_rpc`'s `ListpeerchannelsChannels` consumed by
`Job::is_balanced` / `Job::target_cap`.  All four are `Option`s in the
RPC type and are `unwrap`ped by the code, hence the `Option` type here
and the `Option`-valued results below. -/
structure ListpeerchannelsChannels where
  total_msat : Option Nat
  to_us_msat : Option Nat
  their_reserve_msat : Option Nat
  our_reserve_msat : Option Nat
deriving DecidableEq

/-- `Job::target_cap` from `lib.rs`: the absolute target balance,
`total * target` (ratio defaulting to `0.5`), clamped away from the
relevant reserve.  The `unwrap`s of the three channel fields are
modelled by the `Option` binds; the `as u64` float cast is modelled by
`Int.floor`-then-`Int.toNat`. -/
def Job.target_cap (self : Job) (channel : ListpeerchannelsChannels) : Option Nat := do
  let target : ℚ := self.target.getD ((1 : ℚ)/2)
  let total_msat ← channel.total_msat
  let their_reserve_msat ← channel.their_reserve_msat
  let our_reserve_msat ← channel.our_reserve_msat
  let target_cap : Nat := (⌊(total_msat : ℚ) * target⌋).toNat
  match self.sat_direction with
  | SatDirection.Pull =>
      if total_msat - their_reserve_msat - 1000 ≤ target_cap then
        pure (total_msat - their_reserve_msat - 2000)
      else
        pure target_cap
  | SatDirection.Push =>
      if total_msat - our_reserve_msat - 1000 ≤ target_cap then
        pure (total_msat - our_reserve_msat - 2000)
      else
        pure target_cap

/-- `Job::is_balanced` from `lib.rs`: Pull is balanced when the local
share reaches the target cap, Push when the remote share does. -/
def Job.is_balanced (self : Job) (channel : ListpeerchannelsChannels) : Option Bool := do
  let target_cap ← self.target_cap channel
  let channel_msat ← channel.total_msat
  let to_us_msat ← channel.to_us_msat
  match self.sat_direction with
  | SatDirection.Pull => pure (decide (target_cap ≤ to_us_msat))
  | SatDirection.Push => pure (decide (target_cap ≤ channel_msat - to_us_msat))

/-- `JobMessage` from `model.rs`: the flat enum of job phases. -/
inductive JobMessage where
  | Starting
  | Rebalancing
  | Balanced
  | NoCandidates
  | HTLCcapped
  | Disconnected
  | PeerNotFound
  | PeerNotReady
  | ChanNotNormal
  | GraphEmpty
  | ChanNotInGraph
  | NoRoute
  | TooExp
  | Stopping
  | Stopped
  | Error
  | NoJob
deriving DecidableEq, Repr

/-- `JobState` from `model.rs`: the mutable per-worker record. -/
structure JobState where
  latest_state : JobMessage
  active : Bool
  should_stop : Bool
  id : Nat
deriving DecidableEq, Repr

/-- `JobState::new`. -/
def JobState.new (latest_state : JobMessage) (id : Nat) : JobState :=
  { latest_state := latest_state, active := true, should_stop := false, id := id }

/-- `JobState::missing`. -/
def JobState.missing : JobState :=
  { latest_state := JobMessage.NoJob, active := false, should_stop := false, id := 0 }

/-- `JobState::statechange`: overwrite the latest reported state. -/
def JobState.statechange (self : JobState) (latest_state : JobMessage) : JobState :=
  { self with latest_state := latest_state }

/-- `JobState::stop`: raise the advisory stop flag. -/
def JobState.stop (self : JobState) : JobState :=
  { self with should_stop := true }

/-- `JobState::set_active`. -/
def JobState.set_active (self : JobState) (active : Bool) : JobState :=
  { self with active := active }

/-- The fields of `cln_rpc`'s `ListchannelsChannels` carried in the
graph (`model.rs` uses exactly: endpoints, scid, capacity, htlc bounds,
fee rate; the remaining snapshot fields are static metadata carried
along and never inspected, represented here by the `active`,
`last_update`, `base_fee_millisatoshi` and `delay` fields). -/
structure ListchannelsChannels where
  source : PublicKey
  destination : PublicKey
  short_channel_id : ShortChannelId
  amount_msat : Nat
  active : Bool
  last_update : Nat
  base_fee_millisatoshi : Nat
  fee_per_millionth : Nat
  delay : Nat
  htlc_minimum_msat : Nat
  htlc_maximum_msat : Option Nat
deriving DecidableEq, Repr

/-- `DirectedChannel` from `model.rs`: one directed edge with its
liquidity belief and the timestamp of the last belief reset. -/
structure DirectedChannel where
  channel : ListchannelsChannels
  liquidity : Nat
  timestamp : Nat
deriving DecidableEq, Repr

/-- The maximum-entropy liquidity prior used by `DirectedChannel::new`
and `LnGraph::refresh_liquidity`: `htlc_maximum_msat`-or-capacity,
halved. -/
def defaultLiquidity (channel : ListchannelsChannels) : Nat :=
  (channel.htlc_maximum_msat.getD channel.amount_msat) / 2

/-- `DirectedChannel::new` (the wall clock is an explicit argument). -/
def DirectedChannel.new (channel : ListchannelsChannels) (now : Nat) : DirectedChannel :=
  { channel := channel, liquidity := defaultLiquidity channel, timestamp := now }

/-- The scid of an edge, as the code renders and compares it. -/
def DirectedChannel.scid (e : DirectedChannel) : ShortChannelId :=
  e.channel.short_channel_id

/-- The belief-invalidation test inside `LnGraph::update`: the htlc
maximum changed (with both values present) or the fee rate changed. -/
def policyChanged (o n : ListchannelsChannels) : Bool :=
  (o.htlc_maximum_msat.isSome && n.htlc_maximum_msat.isSome &&
      decide (o.htlc_maximum_msat ≠ n.htlc_maximum_msat))
    || decide (o.fee_per_millionth ≠ n.fee_per_millionth)

/-- The per-edge merge inside `LnGraph::update`: the static channel
metadata is always replaced; the liquidity belief and timestamp are
taken from the new edge exactly when `policyChanged`. -/
def mergeEdge (old_channel new_channel : DirectedChannel) : DirectedChannel :=
  if policyChanged old_channel.channel new_channel.channel then
    { channel := new_channel.channel
      liquidity := new_channel.liquidity
      timestamp := new_channel.timestamp }
  else
    { old_channel with channel := new_channel.channel }

/-- One iteration of the inner `for new_channel in new_channels` loop of
`LnGraph::update`: update the first edge with a matching scid in place,
or push the new edge at the end. -/
def mergeOne : List DirectedChannel → DirectedChannel → List DirectedChannel
  | [], nc => [nc]
  | e :: rest, nc =>
      if e.scid == nc.scid then mergeEdge e nc :: rest
      else e :: mergeOne rest nc

/-- The per-node body of `LnGraph::update`: drop vanished edges
(`retain`), then fold the new edges in. -/
def mergeChannels (old_channels new_channels : List DirectedChannel) : List DirectedChannel :=
  let retained := old_channels.filter fun e => new_channels.any fun n => n.scid == e.scid
  new_channels.foldl mergeOne retained

/-- `LnGraph` from `model.rs`: a `BTreeMap` from node to outgoing
edges, modelled as an association list (the `BTreeMap` keeps keys
unique; theorems that need that fact state it as a hypothesis). -/
structure LnGraph where
  graph : List (PublicKey × List DirectedChannel)
deriving DecidableEq

/-- `LnGraph::new`. -/
def LnGraph.new : LnGraph := ⟨[]⟩

/-- `LnGraph::update`: merge a fresh snapshot in.  The imperative code
touches exactly the nodes of the new snapshot (via `entry().or_default()`)
and finally retains only those nodes, so the merged graph maps each node
of the snapshot to `mergeChannels` of its old adjacency (empty if the
node was absent) with the snapshot adjacency. -/
def LnGraph.update (self new_graph : LnGraph) : LnGraph :=
  ⟨new_graph.graph.map fun p =>
    (p.1, mergeChannels ((List.lookup p.1 self.graph).getD []) p.2)⟩

/-- `LnGraph::refresh_liquidity`: reset every edge whose timestamp is at
most `now - interval*60` to the maximum-entropy default, stamped `now`
(the wall clock is an explicit argument; the `u64` subtraction is
modelled on `Nat`). -/
def LnGraph.refresh_liquidity (self : LnGraph) (interval now : Nat) : LnGraph :=
  ⟨self.graph.map fun p =>
    (p.1, p.2.map fun channel =>
      if channel.timestamp ≤ now - interval * 60 then
        { channel with liquidity := defaultLiquidity channel.channel, timestamp := now }
      else channel)⟩

/-- `LnGraph::edges`: the multi-constraint edge filter used by path
search.  `exclude` models the `HashSet<String>` of already-used scids,
`tempbans` the `HashMap<String, u64>` of banned scids. -/
def LnGraph.edges (self : LnGraph) (mypubkey node : PublicKey)
    (exclude : List String) (exclude_peers : List PublicKey) (amount : Nat)
    (candidatelist : List ShortChannelId) (tempbans : List (String × Nat)) :
    List DirectedChannel :=
  match List.lookup node self.graph with
  | some e =>
      e.filter fun i =>
        let chan_str := i.channel.short_channel_id
        !(exclude.contains chan_str)
          && !(tempbans.any fun p => p.1 == chan_str)
          && decide (amount ≤ i.liquidity)
          && decide (i.channel.htlc_minimum_msat ≤ amount)
          && decide (amount ≤ i.channel.htlc_maximum_msat.getD i.channel.amount_msat)
          && !(exclude_peers.contains i.channel.source)
          && !(exclude_peers.contains i.channel.destination)
          && (if i.channel.source == mypubkey || i.channel.destination == mypubkey then
                candidatelist.any fun c => c == chan_str
              else true)
  | none => []

/-- `SuccessReb` from `model.rs`: one successful rebalance outcome. -/
structure SuccessReb where
  amount_msat : Nat
  fee_ppm : Nat
  channel_partner : ShortChannelId
  hops : Nat
  completed_at : Nat
deriving DecidableEq, Repr

/-- Decimal rendering of a natural number, as `serde_json` prints the
integer fields of `SuccessReb` (most significant digit first). -/
def natChars (n : Nat) : List Char :=
  if n = 0 then ['0'] else (Nat.digits 10 n).reverse.map Nat.digitChar

/-- Value of a most-significant-first list of decimal digit characters. -/
def parseNatDigits (l : List Char) : Nat :=
  l.foldl (fun acc c => acc * 10 + (c.toNat - 48)) 0

/-- Read a decimal number from the front of the input; fails on an
empty digit run (as `serde_json` would). -/
def readNat (l : List Char) : Option (Nat × List Char) :=
  let ds := l.takeWhile Char.isDigit
  if ds.isEmpty then none else some (parseNatDigits ds, l.dropWhile Char.isDigit)

/-- Expect a literal character sequence at the front of the input. -/
def dropLit : List Char → List Char → Option (List Char)
  | [], l => some l
  | _ :: _, [] => none
  | c :: cs, x :: xs => if x = c then dropLit cs xs else none

/-- The fixed punctuation of the `serde_json` rendering of a
`SuccessReb`, split at the variable fields (fields in declaration
order, the scid rendered as a JSON string). -/
def lit1 : List Char := ['\x7b', '"', 'a', 'm', 'o', 'u', 'n', 't', '_', 'm', 's', 'a', 't', '"', ':']

/-- Punctuation between `amount_msat` and `fee_ppm`. -/
def lit2 : List Char := [',', '"', 'f', 'e', 'e', '_', 'p', 'p', 'm', '"', ':']

/-- Punctuation between `fee_ppm` and `channel_partner`. -/
def lit3 : List Char := [',', '"', 'c', 'h', 'a', 'n', 'n', 'e', 'l', '_', 'p', 'a', 'r', 't', 'n', 'e', 'r', '"', ':', '"']

/-- Punctuation between `channel_partner` and `hops`. -/
def lit4 : List Char := ['"', ',', '"', 'h', 'o', 'p', 's', '"', ':']

/-- Punctuation between `hops` and `completed_at`. -/
def lit5 : List Char := [',', '"', 'c', 'o', 'm', 'p', 'l', 'e', 't', 'e', 'd', '_', 'a', 't', '"', ':']

/-- The closing brace. -/
def lit6 : List Char := ['\x7d']

/-- `serde_json::to_string` on a `SuccessReb`: one JSON object with the
five fields in declaration order. -/
def serializeReb (r : SuccessReb) : List Char :=
  lit1 ++ (natChars r.amount_msat ++ (lit2 ++ (natChars r.fee_ppm ++
    (lit3 ++ (r.channel_partner.data ++ (lit4 ++ (natChars r.hops ++
    (lit5 ++ (natChars r.completed_at ++ lit6)))))))))

/-- `serde_json::from_str::<SuccessReb>` on one ledger line: parse the
object produced by `serializeReb`, requiring the whole line to be
consumed. -/
def parseReb (l : List Char) : Option SuccessReb := do
  let l ← dropLit lit1 l
  let (amount, l) ← readNat l
  let l ← dropLit lit2 l
  let (fee, l) ← readNat l
  let l ← dropLit lit3 l
  let partner := l.takeWhile fun c => decide (c ≠ '"')
  let l := l.dropWhile fun c => decide (c ≠ '"')
  let l ← dropLit lit4 l
  let (hops, l) ← readNat l
  let l ← dropLit lit5 l
  let (completed, l) ← readNat l
  let l ← dropLit lit6 l
  if l.isEmpty then
    some { amount_msat := amount, fee_ppm := fee, channel_partner := String.mk partner,
           hops := hops, completed_at := completed }
  else none

/-- `SuccessReb::write_to_file`: append the serialized record plus a
trailing newline to the channel's ledger file (the file contents are the
explicit state). -/
def SuccessReb.write_to_file (self : SuccessReb) (file : List Char) : List Char :=
  file ++ serializeReb self ++ ['\n']

/-- Writing a sequence of records in order, starting from a given file. -/
def writeAll (rs : List SuccessReb) (file : List Char) : List Char :=
  rs.foldl (fun f r => SuccessReb.write_to_file r f) file

/-- Split at newlines, keeping a (possibly empty) trailing segment. -/
def splitNl : List Char → List (List Char)
  | [] => [[]]
  | c :: cs =>
      if c = '\n' then [] :: splitNl cs
      else
        match splitNl cs with
        | [] => [[c]]
        | s :: ss => (c :: s) :: ss

/-- Rust's `str::lines`: newline-separated segments, with no final empty
segment when the text ends in a newline. -/
def linesOf (l : List Char) : List (List Char) :=
  let segs := splitNl l
  if segs.getLast? = some [] then segs.dropLast else segs

/-- The read loop of `SuccessReb::read_from_file`: parse one record per
line, aborting the whole read on the first malformed line. -/
def parseLines : List (List Char) → Option (List SuccessReb)
  | [] => some []
  | l :: ls => do
      let r ← parseReb l
      let rs ← parseLines ls
      pure (r :: rs)

/-- `SuccessReb::read_from_file` on the ledger file contents. -/
def SuccessReb.read_from_file (file : List Char) : Option (List SuccessReb) :=
  parseLines (linesOf file)

/-! ### C9: direction string round trip -/

/-- C9: `SatDirection` renders `Pull`/`Push` as `"pull"`/`"push"`,
parses exactly those strings back, round-trips, and rejects every other
string. -/
theorem direction_string_round_trip :
    (SatDirection.display SatDirection.Pull = "pull" ∧
     SatDirection.display SatDirection.Push = "push") ∧
    (SatDirection.from_str "pull" = some SatDirection.Pull ∧
     SatDirection.from_str "push" = some SatDirection.Push) ∧
    (∀ d : SatDirection, SatDirection.from_str (SatDirection.display d) = some d) ∧
    (∀ s : String, s ≠ "pull" → s ≠ "push" → SatDirection.from_str s = none) := by
  refine ⟨⟨rfl, rfl⟩, ⟨rfl, rfl⟩, fun d => ?_, fun s h1 h2 => ?_⟩
  · cases d <;> rfl
  · simp [SatDirection.from_str, h1, h2]

/-- Witness for C9 at concrete inputs. -/
theorem direction_string_round_trip_witness :
    SatDirection.from_str "sideways" = none ∧
    SatDirection.from_str (SatDirection.display SatDirection.Pull) = some SatDirection.Pull :=
  ⟨direction_string_round_trip.2.2.2 "sideways" (by decide) (by decide),
   direction_string_round_trip.2.2.1 SatDirection.Pull⟩

/-! ### C10: JobState frame conditions -/

/-- C10: `statechange` touches only `latest_state`, `stop` only
`should_stop` (setting it), `set_active` only `active`. -/
theorem jobstate_frame :
    ∀ (js : JobState) (m : JobMessage) (b : Bool),
      ((js.statechange m).latest_state = m ∧
       (js.statechange m).active = js.active ∧
       (js.statechange m).should_stop = js.should_stop ∧
       (js.statechange m).id = js.id) ∧
      (js.stop.should_stop = true ∧
       js.stop.latest_state = js.latest_state ∧
       js.stop.active = js.active ∧
       js.stop.id = js.id) ∧
      ((js.set_active b).active = b ∧
       (js.set_active b).latest_state = js.latest_state ∧
       (js.set_active b).should_stop = js.should_stop ∧
       (js.set_active b).id = js.id) :=
  fun _ _ _ =>
    ⟨⟨rfl, rfl, rfl, rfl⟩, ⟨rfl, rfl, rfl, rfl⟩, ⟨rfl, rfl, rfl, rfl⟩⟩

/-! ### C3: target_cap and its reserve clamp -/

/-- The reserve relevant to a job's direction: the counterparty's for
Pull, our own for Push. -/
def relevantReserve (dir : SatDirection) (their_reserve our_reserve : Nat) : Nat :=
  match dir with
  | SatDirection.Pull => their_reserve
  | SatDirection.Push => our_reserve

/-- C3 (amended): with populated fields, a target ratio in `[0,1]` and a
sane reserve, `target_cap` returns `⌊total * ratio⌋` except that when
the raw target reaches `total - reserve - 1000` (i.e. would leave 1000
or fewer units of margin above the relevant reserve) it is pulled back
to `total - reserve - 2000`; in particular the clamped value respects
the `total - reserve - 2000` bound. -/
theorem target_cap_spec (job : Job) (channel : ListpeerchannelsChannels)
    (total tr our : Nat) (t : ℚ)
    (htotal : channel.total_msat = some total)
    (htr : channel.their_reserve_msat = some tr)
    (hour : channel.our_reserve_msat = some our)
    (ht : job.target.getD ((1 : ℚ)/2) = t)
    (ht0 : 0 ≤ t) (ht1 : t ≤ 1)
    (hres : relevantReserve job.sat_direction tr our + 2000 ≤ total) :
    ∃ cap, job.target_cap channel = some cap ∧
      ((total - relevantReserve job.sat_direction tr our - 1000 ≤ (⌊(total : ℚ) * t⌋).toNat →
          cap = total - relevantReserve job.sat_direction tr our - 2000 ∧
          cap ≤ total - relevantReserve job.sat_direction tr our - 2000) ∧
       ((⌊(total : ℚ) * t⌋).toNat < total - relevantReserve job.sat_direction tr our - 1000 →
          cap = (⌊(total : ℚ) * t⌋).toNat)) := by
  unfold Job.target_cap
  rw [htotal, htr, hour, ht]
  simp only [Option.bind_eq_bind, Option.some_bind, Option.pure_def]
  cases hdir : job.sat_direction <;> simp only [relevantReserve] <;> split <;> rename_i hsplit
  · exact ⟨_, rfl, ⟨fun _ => ⟨rfl, le_refl _⟩, fun hlt => by omega⟩⟩
  · exact ⟨_, rfl, ⟨fun hge => by omega, fun _ => rfl⟩⟩
  · exact ⟨_, rfl, ⟨fun _ => ⟨rfl, le_refl _⟩, fun hlt => by omega⟩⟩
  · exact ⟨_, rfl, ⟨fun hge => by omega, fun _ => rfl⟩⟩

/-- Witness for C3 at a concrete channel (Pull, ratio 0.6, no clamp). -/
theorem target_cap_spec_witness :
    ∃ cap,
      Job.target_cap
        { sat_direction := SatDirection.Pull, amount := 100000, outppm := none,
          maxppm := 0, candidatelist := none, target := some ((3 : ℚ)/5),
          maxhops := none, depleteuptopercent := none, depleteuptoamount := none,
          paralleljobs := none }
        { total_msat := some 1000000, to_us_msat := some 500000,
          their_reserve_msat := some 10000, our_reserve_msat := some 10000 } = some cap ∧
      ((1000000 - relevantReserve SatDirection.Pull 10000 10000 - 1000 ≤
          (⌊((1000000 : Nat) : ℚ) * ((3 : ℚ)/5)⌋).toNat →
          cap = 1000000 - relevantReserve SatDirection.Pull 10000 10000 - 2000 ∧
          cap ≤ 1000000 - relevantReserve SatDirection.Pull 10000 10000 - 2000) ∧
       ((⌊((1000000 : Nat) : ℚ) * ((3 : ℚ)/5)⌋).toNat <
          1000000 - relevantReserve SatDirection.Pull 10000 10000 - 1000 →
          cap = (⌊((1000000 : Nat) : ℚ) * ((3 : ℚ)/5)⌋).toNat)) :=
  target_cap_spec _ _ 1000000 10000 10000 ((3 : ℚ)/5) rfl rfl rfl rfl
    (by norm_num) (by norm_num) (by simp [relevantReserve])

/-- The job of the C3 counterexample: a Pull job with target ratio
`0.9`. -/
def cexJobC3 : Job :=
  { sat_direction := SatDirection.Pull, amount := 0, outppm := none, maxppm := 0,
    candidatelist := none, target := some ((9 : ℚ)/10), maxhops := none,
    depleteuptopercent := none, depleteuptoamount := none, paralleljobs := none }

/-- The channel of the C3 counterexample: capacity 10000, zero
reserves, so the raw target 9000 leaves exactly 1000 units of margin. -/
def cexChanC3 : ListpeerchannelsChannels :=
  { total_msat := some 10000, to_us_msat := some 0,
    their_reserve_msat := some 0, our_reserve_msat := some 0 }

/-- C3 counterexample: the raw target `⌊10000 * 0.9⌋ = 9000` leaves a
margin of exactly 1000 — not *fewer than* 1000 — above the reserve, so
the claim says `target_cap` returns the raw 9000; the code clamps at
`>=` and returns 8000. -/
theorem target_cap_boundary_counterexample :
    (⌊((10000 : Nat) : ℚ) * ((9 : ℚ)/10)⌋).toNat = 9000 ∧
    ¬ ((10000 : Nat) - 0 - 9000 < 1000) ∧
    cexJobC3.target_cap cexChanC3 = some 8000 ∧
    cexJobC3.target_cap cexChanC3 ≠ some 9000 := by
  refine ⟨by norm_num; rfl, by norm_num, ?_, ?_⟩ <;>
    simp only [cexJobC3, cexChanC3, Job.target_cap, Option.getD,
      Option.bind_eq_bind, Option.some_bind] <;>
    (norm_num; try rfl)

/-! ### C7: is_balanced against the target cap -/

/-- C7: with populated balances, a Pull job is balanced exactly when the
local share reaches the target cap, and a Push job exactly when the
counterparty share `total - to_us` does. -/
theorem is_balanced_iff (job : Job) (channel : ListpeerchannelsChannels)
    (total to_us cap : Nat)
    (htotal : channel.total_msat = some total)
    (hto : channel.to_us_msat = some to_us)
    (hle : to_us ≤ total)
    (hcap : job.target_cap channel = some cap) :
    (job.sat_direction = SatDirection.Pull →
       (job.is_balanced channel = some true ↔ cap ≤ to_us)) ∧
    (job.sat_direction = SatDirection.Push →
       (job.is_balanced channel = some true ↔ cap ≤ total - to_us)) := by
  unfold Job.is_balanced
  rw [hcap, htotal, hto]
  constructor <;> intro hdir <;> rw [hdir] <;> simp

/-- Witness for C7: the spec's scenario.  A Pull job with target `0.6`
on a channel with total `1000000` is not balanced at local share
`500000` and is balanced at local share `600000` (the target cap being
`600000`). -/
theorem is_balanced_iff_witness :
    ¬ ((Job.is_balanced
          { sat_direction := SatDirection.Pull, amount := 100000, outppm := none,
            maxppm := 0, candidatelist := none, target := some ((3 : ℚ)/5),
            maxhops := none, depleteuptopercent := none, depleteuptoamount := none,
            paralleljobs := none }
          { total_msat := some 1000000, to_us_msat := some 500000,
            their_reserve_msat := some 10000, our_reserve_msat := some 10000 }) = some true) ∧
    (Job.is_balanced
        { sat_direction := SatDirection.Pull, amount := 100000, outppm := none,
          maxppm := 0, candidatelist := none, target := some ((3 : ℚ)/5),
          maxhops := none, depleteuptopercent := none, depleteuptoamount := none,
          paralleljobs := none }
        { total_msat := some 1000000, to_us_msat := some 600000,
          their_reserve_msat := some 10000, our_reserve_msat := some 10000 }) = some true := by
  have hcap1 : Job.target_cap
      { sat_direction := SatDirection.Pull, amount := 100000, outppm := none,
        maxppm := 0, candidatelist := none, target := some ((3 : ℚ)/5),
        maxhops := none, depleteuptopercent := none, depleteuptoamount := none,
        paralleljobs := none }
      { total_msat := some 1000000, to_us_msat := some 500000,
        their_reserve_msat := some 10000, our_reserve_msat := some 10000 } = some 600000 := by
    simp only [Job.target_cap, Option.getD, Option.bind_eq_bind, Option.some_bind]
    (norm_num; try rfl)
  have hcap2 : Job.target_cap
      { sat_direction := SatDirection.Pull, amount := 100000, outppm := none,
        maxppm := 0, candidatelist := none, target := some ((3 : ℚ)/5),
        maxhops := none, depleteuptopercent := none, depleteuptoamount := none,
        paralleljobs := none }
      { total_msat := some 1000000, to_us_msat := some 600000,
        their_reserve_msat := some 10000, our_reserve_msat := some 10000 } = some 600000 := by
    simp only [Job.target_cap, Option.getD, Option.bind_eq_bind, Option.some_bind]
    (norm_num; try rfl)
  constructor
  · intro h
    have := ((is_balanced_iff _ _ 1000000 500000 600000 rfl rfl (by norm_num) hcap1).1 rfl).mp h
    omega
  · exact ((is_balanced_iff _ _ 1000000 600000 600000 rfl rfl (by norm_num) hcap2).1 rfl).mpr
      (by norm_num)

/-! ### C1: the edge filter returns exactly the qualifying edges -/

/-- The candidate-list clause of the `edges` filter, as a proposition:
when the edge touches the local node its scid must be on the list. -/
theorem ite_any_eq (p : Prop) [Decidable p] (l : List ShortChannelId) (s : ShortChannelId) :
    ((if p then l.any fun c => c == s else true) = true) ↔ (p → s ∈ l) := by
  split <;> rename_i hp
  · simp [List.any_beq', hp]
  · simp [hp]

/-- C1: an edge is returned by `edges` exactly when it is an outgoing
edge of the queried node that is neither excluded nor temp-banned, has
enough believed liquidity, admits the amount within its htlc bounds,
touches no excluded peer, and — when it touches the local node — is on
the candidate list. -/
theorem edges_mem_iff (g : LnGraph) (mypubkey node : PublicKey)
    (exclude : List String) (exclude_peers : List PublicKey) (amount : Nat)
    (candidatelist : List ShortChannelId) (tempbans : List (String × Nat))
    (e : DirectedChannel) :
    e ∈ g.edges mypubkey node exclude exclude_peers amount candidatelist tempbans ↔
      (e ∈ (List.lookup node g.graph).getD [] ∧
       e.channel.short_channel_id ∉ exclude ∧
       e.channel.short_channel_id ∉ tempbans.map Prod.fst ∧
       amount ≤ e.liquidity ∧
       e.channel.htlc_minimum_msat ≤ amount ∧
       amount ≤ e.channel.htlc_maximum_msat.getD e.channel.amount_msat ∧
       e.channel.source ∉ exclude_peers ∧
       e.channel.destination ∉ exclude_peers ∧
       ((e.channel.source = mypubkey ∨ e.channel.destination = mypubkey) →
         e.channel.short_channel_id ∈ candidatelist)) := by
  unfold LnGraph.edges
  cases h : List.lookup node g.graph with
  | none => simp [h]
  | some adj =>
    simp only [h, Option.getD_some, List.mem_filter]
    refine and_congr_right fun _ => ?_
    simp only [Bool.and_eq_true, Bool.not_eq_true', List.contains_eq_any_beq,
      List.any_eq_false, decide_eq_true_eq, beq_iff_eq, Bool.or_eq_true, ite_any_eq]
    constructor
    · rintro ⟨⟨⟨⟨⟨⟨⟨hex, htb⟩, hliq⟩, hmin⟩, hmax⟩, hsrc⟩, hdst⟩, hcand⟩
      refine ⟨fun hc => hex _ hc rfl, fun hc => ?_, hliq, hmin, hmax,
        fun hc => hsrc _ hc rfl, fun hc => hdst _ hc rfl, hcand⟩
      obtain ⟨p, hp, hps⟩ := List.mem_map.mp hc
      exact htb p hp hps
    · rintro ⟨hex, htb, hliq, hmin, hmax, hsrc, hdst, hcand⟩
      exact ⟨⟨⟨⟨⟨⟨⟨fun c hc hcs => hex (hcs ▸ hc),
        fun p hp hps => htb (List.mem_map.mpr ⟨p, hp, hps⟩)⟩,
        hliq⟩, hmin⟩, hmax⟩, fun p hp hps => hsrc (hps ▸ hp)⟩,
        fun p hp hps => hdst (hps ▸ hp)⟩, hcand⟩
/-- The channel of the C1 witness (an edge of the local node). -/
def chanC1 : ListchannelsChannels :=
  { source := 1, destination := 2, short_channel_id := "700x1x0", amount_msat := 200,
    active := true, last_update := 0, base_fee_millisatoshi := 0, fee_per_millionth := 0,
    delay := 6, htlc_minimum_msat := 0, htlc_maximum_msat := some 100 }

/-- The one-edge graph of the C1 witness. -/
def graphC1 : LnGraph := ⟨[(1, [⟨chanC1, 7, 0⟩])]⟩

/-- Witness for C1 at a concrete one-edge graph whose edge touches the
local node and is on the candidate list. -/
theorem edges_mem_iff_witness :
    (⟨chanC1, 7, 0⟩ : DirectedChannel) ∈ graphC1.edges 1 1 [] [] 5 ["700x1x0"] [] ↔
      ((⟨chanC1, 7, 0⟩ : DirectedChannel) ∈ (List.lookup 1 graphC1.graph).getD [] ∧
       (⟨chanC1, 7, 0⟩ : DirectedChannel).channel.short_channel_id ∉ ([] : List String) ∧
       (⟨chanC1, 7, 0⟩ : DirectedChannel).channel.short_channel_id ∉
         (([] : List (String × Nat)).map Prod.fst) ∧
       5 ≤ (⟨chanC1, 7, 0⟩ : DirectedChannel).liquidity ∧
       (⟨chanC1, 7, 0⟩ : DirectedChannel).channel.htlc_minimum_msat ≤ 5 ∧
       5 ≤ (⟨chanC1, 7, 0⟩ : DirectedChannel).channel.htlc_maximum_msat.getD
         (⟨chanC1, 7, 0⟩ : DirectedChannel).channel.amount_msat ∧
       (⟨chanC1, 7, 0⟩ : DirectedChannel).channel.source ∉ ([] : List PublicKey) ∧
       (⟨chanC1, 7, 0⟩ : DirectedChannel).channel.destination ∉ ([] : List PublicKey) ∧
       (((⟨chanC1, 7, 0⟩ : DirectedChannel).channel.source = 1 ∨
         (⟨chanC1, 7, 0⟩ : DirectedChannel).channel.destination = 1) →
         (⟨chanC1, 7, 0⟩ : DirectedChannel).channel.short_channel_id ∈ ["700x1x0"])) :=
  edges_mem_iff graphC1 1 1 [] [] 5 ["700x1x0"] [] ⟨chanC1, 7, 0⟩

/-! ### Merge lemmas for `LnGraph.update` -/

/-- The scid of a merged edge is the new edge's scid (the merge always
installs the new channel metadata). -/
theorem mergeEdge_channel (o n : DirectedChannel) : (mergeEdge o n).channel = n.channel := by
  unfold mergeEdge
  split <;> rfl

/-- An unchanged policy never triggers a belief reset. -/
theorem policyChanged_self (c : ListchannelsChannels) : policyChanged c c = false := by
  simp [policyChanged]

/-- Merging an edge whose metadata already equals the new metadata is a
no-op. -/
theorem mergeEdge_fix {o n : DirectedChannel} (h : o.channel = n.channel) :
    mergeEdge o n = o := by
  unfold mergeEdge
  rw [← h, policyChanged_self]
  simp

/-- Looking up a key in an association list transformed entry-wise. -/
theorem lookup_map_value (f : PublicKey → List DirectedChannel → List DirectedChannel)
    (l : List (PublicKey × List DirectedChannel)) (k : PublicKey) :
    List.lookup k (l.map fun p => (p.1, f p.1 p.2)) = (List.lookup k l).map (f k) := by
  induction l with
  | nil => rfl
  | cons p t ih =>
    obtain ⟨a, b⟩ := p
    by_cases hak : k = a
    · subst hak
      simp [List.lookup]
    · have : (k == a) = false := beq_eq_false_iff_ne.mpr hak
      simp [List.lookup, this, ih]

/-- In an association list with pairwise-distinct keys, lookup finds
every member entry. -/
theorem lookup_of_mem_keys_nodup {l : List (PublicKey × List DirectedChannel)}
    (hk : (l.map Prod.fst).Nodup) {p : PublicKey × List DirectedChannel} (hp : p ∈ l) :
    List.lookup p.1 l = some p.2 := by
  induction l with
  | nil => cases hp
  | cons q t ih =>
    rcases List.mem_cons.mp hp with rfl | hp'
    · simp [List.lookup]
    · have hne : (p.1 == q.1) = false := by
        refine beq_eq_false_iff_ne.mpr fun he => ?_
        exact (List.nodup_cons.mp hk).1 (he ▸ List.mem_map.mpr ⟨p, hp', rfl⟩)
      simp only [List.lookup, hne]
      exact ih (List.nodup_cons.mp hk).2 hp'

/-- `mergeOne` with a different scid does not disturb the first match
for a given scid. -/
theorem find?_mergeOne_ne (l : List DirectedChannel) (nc : DirectedChannel)
    (s : ShortChannelId) (h : nc.scid ≠ s) :
    (mergeOne l nc).find? (fun e => e.scid == s) = l.find? (fun e => e.scid == s) := by
  induction l with
  | nil =>
    simp [mergeOne, List.find?, beq_eq_false_iff_ne.mpr h]
  | cons e rest ih =>
    unfold mergeOne
    by_cases he : (e.scid == nc.scid) = true
    · rw [if_pos he]
      have h1 : ((mergeEdge e nc).scid == s) = false := by
        refine beq_eq_false_iff_ne.mpr ?_
        show (mergeEdge e nc).channel.short_channel_id ≠ s
        rw [mergeEdge_channel]
        exact h
      have h2 : (e.scid == s) = false :=
        beq_eq_false_iff_ne.mpr fun hc => h ((beq_iff_eq.mp he) ▸ hc)
      simp [List.find?, h1, h2]
    · rw [if_neg he]
      by_cases hs : (e.scid == s) = true
      · simp [List.find?, hs]
      · simp only [List.find?, Bool.not_eq_true] at hs ⊢
        simp [hs, ih]

/-- `mergeOne` installs the merged edge (or the pushed new edge) as the
first match for the new edge's scid. -/
theorem find?_mergeOne_eq (l : List DirectedChannel) (nc : DirectedChannel) :
    (mergeOne l nc).find? (fun e => e.scid == nc.scid) =
      some ((l.find? (fun e => e.scid == nc.scid)).elim nc fun e => mergeEdge e nc) := by
  induction l with
  | nil =>
    simp [mergeOne, List.find?, Option.elim]
  | cons e rest ih =>
    unfold mergeOne
    by_cases he : (e.scid == nc.scid) = true
    · rw [if_pos he]
      have h1 : ((mergeEdge e nc).scid == nc.scid) = true := by
        refine beq_iff_eq.mpr ?_
        show (mergeEdge e nc).channel.short_channel_id = nc.scid
        rw [mergeEdge_channel]
        rfl
      simp [List.find?, h1, he, Option.elim]
    · rw [if_neg he]
      simp only [List.find?]
      rw [show (e.scid == nc.scid) = false from by simpa using he]
      simpa using ih

/-- Folding in only edges with different scids does not disturb the
first match for a given scid. -/
theorem find?_foldl_ne (L : List DirectedChannel) (b : List DirectedChannel)
    (s : ShortChannelId) (h : ∀ nc ∈ L, nc.scid ≠ s) :
    (L.foldl mergeOne b).find? (fun e => e.scid == s) = b.find? (fun e => e.scid == s) := by
  induction L generalizing b with
  | nil => rfl
  | cons m t ih =>
    simp only [List.foldl_cons]
    rw [ih (mergeOne b m) fun nc hnc => h nc (List.mem_cons_of_mem _ hnc)]
    exact find?_mergeOne_ne b m s (h m (List.mem_cons_self _ _))

/-- Master characterization of one fold of `LnGraph.update`'s inner
loop: for a snapshot adjacency with pairwise-distinct scids, the first
match for a member edge's scid in the folded list is the merge of the
base's first match with that edge (or the edge itself if the base has
none). -/
theorem find?_foldl_mem (L : List DirectedChannel) (b : List DirectedChannel)
    (nc : DirectedChannel) (hmem : nc ∈ L)
    (hnodup : (L.map DirectedChannel.scid).Nodup) :
    (L.foldl mergeOne b).find? (fun e => e.scid == nc.scid) =
      some ((b.find? (fun e => e.scid == nc.scid)).elim nc fun e => mergeEdge e nc) := by
  induction L generalizing b with
  | nil => cases hmem
  | cons m t ih =>
    simp only [List.foldl_cons]
    rw [List.map_cons, List.nodup_cons] at hnodup
    rcases List.mem_cons.mp hmem with rfl | hmem'
    · have hnot : ∀ x ∈ t, x.scid ≠ nc.scid := fun x hx heq =>
        hnodup.1 (List.mem_map.mpr ⟨x, hx, heq⟩)
      rw [find?_foldl_ne t _ _ hnot, find?_mergeOne_eq]
    · have hm_ne : m.scid ≠ nc.scid := fun heq =>
        hnodup.1 (List.mem_map.mpr ⟨nc, hmem', heq.symm⟩)
      rw [ih (mergeOne b m) hmem' hnodup.2,
        find?_mergeOne_ne b m nc.scid hm_ne]

/-- Restricting a list to entries that pass a filter keeps the first
match for a scid, provided that first match passes the filter. -/
theorem find?_filter (l : List DirectedChannel) (q : DirectedChannel → Bool)
    (s : ShortChannelId) (e : DirectedChannel)
    (hf : l.find? (fun x => x.scid == s) = some e) (hq : q e = true) :
    (l.filter q).find? (fun x => x.scid == s) = some e := by
  induction l with
  | nil => cases hf
  | cons h t ih =>
    by_cases hh : (h.scid == s) = true
    · have he : e = h := by
        have := hf
        simp only [List.find?, hh] at this
        exact (Option.some.inj this).symm
      subst he
      rw [List.filter_cons_of_pos hq]
      simp [List.find?, hh]
    · have hf' : t.find? (fun x => x.scid == s) = some e := by
        have := hf
        simp only [List.find?] at this
        rwa [show (h.scid == s) = false from by simpa using hh] at this
      by_cases hqh : q h = true
      · rw [List.filter_cons_of_pos hqh]
        simp only [List.find?]
        rw [show (h.scid == s) = false from by simpa using hh]
        exact ih hf'
      · rw [List.filter_cons_of_neg (by simpa using hqh)]
        exact ih hf'

/-- Every edge of `mergeOne l nc` is either an edge of `l` or carries
`nc`'s scid. -/
theorem scid_mem_mergeOne {e : DirectedChannel} (l : List DirectedChannel)
    (nc : DirectedChannel) (he : e ∈ mergeOne l nc) :
    e ∈ l ∨ e.scid = nc.scid := by
  induction l with
  | nil =>
    simp only [mergeOne, List.mem_singleton] at he
    exact Or.inr (he ▸ rfl)
  | cons h t ih =>
    unfold mergeOne at he
    by_cases hh : (h.scid == nc.scid) = true
    · rw [if_pos hh] at he
      rcases List.mem_cons.mp he with rfl | he'
      · refine Or.inr ?_
        show (mergeEdge h nc).channel.short_channel_id = nc.scid
        rw [mergeEdge_channel]
        rfl
      · exact Or.inl (List.mem_cons_of_mem _ he')
    · rw [if_neg hh] at he
      rcases List.mem_cons.mp he with rfl | he'
      · exact Or.inl (List.mem_cons_self _ _)
      · rcases ih he' with h1 | h1
        · exact Or.inl (List.mem_cons_of_mem _ h1)
        · exact Or.inr h1

/-- Every edge of the folded list comes from the base or carries a scid
of the folded snapshot edges. -/
theorem scid_mem_foldl {e : DirectedChannel} (L b : List DirectedChannel)
    (he : e ∈ L.foldl mergeOne b) :
    e ∈ b ∨ e.scid ∈ L.map DirectedChannel.scid := by
  induction L generalizing b with
  | nil => exact Or.inl he
  | cons m t ih =>
    simp only [List.foldl_cons] at he
    rcases ih (mergeOne b m) he with h1 | h1
    · rcases scid_mem_mergeOne b m h1 with h2 | h2
      · exact Or.inl h2
      · refine Or.inr ?_
        rw [List.map_cons, h2]
        exact List.mem_cons_self _ _
    · refine Or.inr ?_
      rw [List.map_cons]
      exact List.mem_cons_of_mem _ h1

/-- Every edge of a merged adjacency carries the scid of some snapshot
edge. -/
theorem mergeChannels_scid_sub {e : DirectedChannel}
    (old_channels new_channels : List DirectedChannel)
    (he : e ∈ mergeChannels old_channels new_channels) :
    ∃ n ∈ new_channels, n.scid = e.scid := by
  unfold mergeChannels at he
  rcases scid_mem_foldl _ _ he with hb | hs
  · have := (List.mem_filter.mp hb).2
    obtain ⟨n, hn, hns⟩ := List.any_eq_true.mp this
    exact ⟨n, hn, beq_iff_eq.mp hns⟩
  · obtain ⟨n, hn, hns⟩ := List.mem_map.mp hs
    exact ⟨n, hn, hns⟩

/-- `mergeOne` is a no-op when the first match is already fully merged. -/
theorem mergeOne_fix {l : List DirectedChannel} {nc e : DirectedChannel}
    (hf : l.find? (fun x => x.scid == nc.scid) = some e)
    (hfix : mergeEdge e nc = e) : mergeOne l nc = l := by
  induction l with
  | nil => cases hf
  | cons h t ih =>
    by_cases hh : (h.scid == nc.scid) = true
    · have he : e = h := by
        have := hf
        simp only [List.find?, hh] at this
        exact (Option.some.inj this).symm
      subst he
      unfold mergeOne
      rw [if_pos hh, hfix]
    · have hf' : t.find? (fun x => x.scid == nc.scid) = some e := by
        have := hf
        simp only [List.find?] at this
        rwa [show (h.scid == nc.scid) = false from by simpa using hh] at this
      unfold mergeOne
      rw [if_neg hh, ih hf']

/-- A fold of no-op merges is the identity. -/
theorem foldl_fix {L b : List DirectedChannel}
    (h : ∀ nc ∈ L, mergeOne b nc = b) : L.foldl mergeOne b = b := by
  induction L with
  | nil => rfl
  | cons m t ih =>
    simp only [List.foldl_cons]
    rw [h m (List.mem_cons_self _ _)]
    exact ih fun nc hnc => h nc (List.mem_cons_of_mem _ hnc)

/-- Merging the same snapshot adjacency twice is the same as merging it
once (scids of the snapshot adjacency pairwise distinct). -/
theorem mergeChannels_idem (old_channels new_channels : List DirectedChannel)
    (hnodup : (new_channels.map DirectedChannel.scid).Nodup) :
    mergeChannels (mergeChannels old_channels new_channels) new_channels =
      mergeChannels old_channels new_channels := by
  have hfilter : (mergeChannels old_channels new_channels).filter
      (fun e => new_channels.any fun n => n.scid == e.scid) =
      mergeChannels old_channels new_channels := by
    apply List.filter_eq_self.mpr
    intro e he
    obtain ⟨n, hn, hns⟩ := mergeChannels_scid_sub _ _ he
    exact List.any_eq_true.mpr ⟨n, hn, beq_iff_eq.mpr hns⟩
  show new_channels.foldl mergeOne ((mergeChannels old_channels new_channels).filter
    (fun e => new_channels.any fun n => n.scid == e.scid)) =
    mergeChannels old_channels new_channels
  rw [hfilter]
  apply foldl_fix
  intro nc hnc
  have hfind := find?_foldl_mem new_channels
    (old_channels.filter fun e => new_channels.any fun n => n.scid == e.scid) nc hnc hnodup
  refine mergeOne_fix hfind (mergeEdge_fix ?_)
  cases hb : (old_channels.filter fun e => new_channels.any fun n => n.scid == e.scid).find?
      (fun e => e.scid == nc.scid) with
  | none => simp [hb, Option.elim]
  | some e0 => simp [hb, Option.elim, mergeEdge_channel]

/-- Looking up a node in a merged graph: the merge of its old adjacency
(empty when the node is new) with its snapshot adjacency. -/
theorem update_lookup (g s : LnGraph) (n : PublicKey) :
    List.lookup n (g.update s).graph =
      (List.lookup n s.graph).map fun chans =>
        mergeChannels ((List.lookup n g.graph).getD []) chans := by
  exact lookup_map_value (fun k chans => mergeChannels ((List.lookup k g.graph).getD []) chans)
    s.graph n

/-! ### C2: belief preservation / reset on merge -/

/-- C2: when a node's edge appears in both the old graph and the
snapshot (first match by scid), the merged graph carries its snapshot
metadata, and its belief and timestamp come from the snapshot edge —
the fresh default — exactly when the htlc maximum (with both bounds
present) or the fee rate changed; otherwise the accumulated belief and
timestamp are preserved.  The snapshot adjacency is assumed to have
pairwise-distinct scids (the graph invariant) and freshly defaulted
beliefs (it is built with `DirectedChannel::new`). -/
theorem update_existing_edge (g s : LnGraph) (n : PublicKey)
    (oldChans newChans : List DirectedChannel)
    (ho : List.lookup n g.graph = some oldChans)
    (hs : List.lookup n s.graph = some newChans)
    (hnodup : (newChans.map DirectedChannel.scid).Nodup)
    (eOld nc : DirectedChannel)
    (hfind : oldChans.find? (fun x => x.scid == nc.scid) = some eOld)
    (hmem : nc ∈ newChans)
    (hdef : nc.liquidity = defaultLiquidity nc.channel) :
    ∃ merged e', List.lookup n (g.update s).graph = some merged ∧
      merged.find? (fun x => x.scid == nc.scid) = some e' ∧
      e'.channel = nc.channel ∧
      (policyChanged eOld.channel nc.channel = true →
        e'.liquidity = defaultLiquidity nc.channel ∧ e'.timestamp = nc.timestamp) ∧
      (policyChanged eOld.channel nc.channel = false →
        e'.liquidity = eOld.liquidity ∧ e'.timestamp = eOld.timestamp) := by
  refine ⟨mergeChannels oldChans newChans, mergeEdge eOld nc, ?_, ?_,
    mergeEdge_channel _ _, ?_, ?_⟩
  · rw [update_lookup, hs, ho]
    rfl
  · have hpred0 := List.find?_some hfind
    have hpred : eOld.scid = nc.scid := by simpa using hpred0
    have hq : (newChans.any fun x => x.scid == eOld.scid) = true := by
      refine List.any_eq_true.mpr ⟨nc, hmem, ?_⟩
      rw [hpred]
      exact beq_self_eq_true _
    have hfind2 := find?_filter oldChans
      (fun e => newChans.any fun x => x.scid == e.scid) nc.scid eOld hfind hq
    have hmain := find?_foldl_mem newChans
      (oldChans.filter fun e => newChans.any fun x => x.scid == e.scid) nc hmem hnodup
    rw [hfind2] at hmain
    simpa [Option.elim] using hmain
  · intro hpc
    rw [← hdef]
    constructor <;> simp [mergeEdge, hpc]
  · intro hpc
    constructor <;> simp [mergeEdge, hpc]

/-- The static metadata of the C2 witness channel. -/
def chanW : ListchannelsChannels :=
  { source := 1, destination := 2, short_channel_id := "700x1x0", amount_msat := 200000,
    active := true, last_update := 11, base_fee_millisatoshi := 0, fee_per_millionth := 50,
    delay := 6, htlc_minimum_msat := 1, htlc_maximum_msat := some 180000 }

/-- The C2 witness channel after a fee-rate change. -/
def chanWfee : ListchannelsChannels :=
  { chanW with fee_per_millionth := 75 }

/-- The old graph of the C2 witness: one edge with accumulated
(non-default) belief. -/
def gW : LnGraph := ⟨[(1, [⟨chanW, 17000, 100⟩])]⟩

/-- The snapshot of the C2 witness: the same edge with a changed fee
rate and a fresh default belief. -/
def sW : LnGraph := ⟨[(1, [⟨chanWfee, 90000, 500⟩])]⟩

/-- Witness for C2 at the concrete fee-rate-change scenario. -/
theorem update_existing_edge_witness :
    ∃ merged e', List.lookup 1 (gW.update sW).graph = some merged ∧
      merged.find? (fun x => x.scid == DirectedChannel.scid ⟨chanWfee, 90000, 500⟩) = some e' ∧
      e'.channel = chanWfee ∧
      (policyChanged chanW chanWfee = true →
        e'.liquidity = defaultLiquidity chanWfee ∧ e'.timestamp = 500) ∧
      (policyChanged chanW chanWfee = false →
        e'.liquidity = 17000 ∧ e'.timestamp = 100) :=
  update_existing_edge gW sW 1 [⟨chanW, 17000, 100⟩] [⟨chanWfee, 90000, 500⟩]
    (by decide) (by decide) (by decide) ⟨chanW, 17000, 100⟩ ⟨chanWfee, 90000, 500⟩
    (by decide) (by decide) (by decide)

/-! ### C4: merging the same snapshot twice is idempotent -/

/-- C4: `update` with the same snapshot is idempotent.  The snapshot is
assumed well-formed: node keys are pairwise distinct (a `BTreeMap`
guarantee in the code) and each adjacency has pairwise-distinct scids
(the stated graph invariant). -/
theorem update_idempotent (g s : LnGraph)
    (hkeys : (s.graph.map Prod.fst).Nodup)
    (hscids : ∀ p ∈ s.graph, (p.2.map DirectedChannel.scid).Nodup) :
    (g.update s).update s = g.update s := by
  have h : ((g.update s).update s).graph = (g.update s).graph := by
    show s.graph.map (fun p =>
        (p.1, mergeChannels ((List.lookup p.1 (g.update s).graph).getD []) p.2)) =
      s.graph.map (fun p =>
        (p.1, mergeChannels ((List.lookup p.1 g.graph).getD []) p.2))
    apply List.map_congr_left
    intro p hp
    have hlk : List.lookup p.1 (g.update s).graph =
        some (mergeChannels ((List.lookup p.1 g.graph).getD []) p.2) := by
      rw [update_lookup, lookup_of_mem_keys_nodup hkeys hp]
      rfl
    rw [hlk, Option.getD_some, mergeChannels_idem _ _ (hscids p hp)]
  exact congrArg LnGraph.mk h

/-- Witness for C4 at a concrete graph and snapshot (one shared node
with a policy change, one new node). -/
theorem update_idempotent_witness :
    ((⟨[(1, [⟨chanW, 17000, 100⟩])]⟩ : LnGraph).update
        ⟨[(1, [⟨chanWfee, 90000, 500⟩]), (2, [⟨chanW, 90000, 500⟩])]⟩).update
      ⟨[(1, [⟨chanWfee, 90000, 500⟩]), (2, [⟨chanW, 90000, 500⟩])]⟩ =
      (⟨[(1, [⟨chanW, 17000, 100⟩])]⟩ : LnGraph).update
        ⟨[(1, [⟨chanWfee, 90000, 500⟩]), (2, [⟨chanW, 90000, 500⟩])]⟩ :=
  update_idempotent ⟨[(1, [⟨chanW, 17000, 100⟩])]⟩
    ⟨[(1, [⟨chanWfee, 90000, 500⟩]), (2, [⟨chanW, 90000, 500⟩])]⟩
    (by decide) (by decide)

/-! ### C5: the merge prunes stale nodes and edges -/

/-- C5: after a merge, a node absent from the snapshot is absent from
the graph, and every edge stored under a surviving node carries the scid
of one of that node's snapshot edges. -/
theorem update_prunes (g s : LnGraph) :
    (∀ n, List.lookup n s.graph = none → List.lookup n (g.update s).graph = none) ∧
    (∀ n newChans, List.lookup n s.graph = some newChans →
      ∃ merged, List.lookup n (g.update s).graph = some merged ∧
        ∀ e ∈ merged, ∃ e2 ∈ newChans, DirectedChannel.scid e2 = DirectedChannel.scid e) := by
  constructor
  · intro n hn
    rw [update_lookup, hn]
    rfl
  · intro n newChans hn
    refine ⟨_, by rw [update_lookup, hn]; rfl, ?_⟩
    intro e he
    exact mergeChannels_scid_sub _ _ he

/-- Witness for C5: node `1` survives the merge with snapshot scids
only, node `7` is pruned. -/
theorem update_prunes_witness :
    List.lookup 7 ((⟨[(7, [⟨chanW, 17000, 100⟩])]⟩ : LnGraph).update sW).graph = none ∧
    ∃ merged, List.lookup 1 ((⟨[(7, [⟨chanW, 17000, 100⟩])]⟩ : LnGraph).update sW).graph =
        some merged ∧
      ∀ e ∈ merged, ∃ e2 ∈ [(⟨chanWfee, 90000, 500⟩ : DirectedChannel)],
        DirectedChannel.scid e2 = DirectedChannel.scid e :=
  ⟨(update_prunes ⟨[(7, [⟨chanW, 17000, 100⟩])]⟩ sW).1 7 (by decide),
   (update_prunes ⟨[(7, [⟨chanW, 17000, 100⟩])]⟩ sW).2 1 [⟨chanWfee, 90000, 500⟩] (by decide)⟩

/-! ### C6: refresh_liquidity and the belief-age boundary -/

/-- The channel of the C6 counterexample. -/
def chanC6 : ListchannelsChannels :=
  { source := 1, destination := 2, short_channel_id := "700x1x0", amount_msat := 200,
    active := true, last_update := 0, base_fee_millisatoshi := 0, fee_per_millionth := 0,
    delay := 6, htlc_minimum_msat := 0, htlc_maximum_msat := some 100 }

/-- The graph of the C6 counterexample: one edge with belief 7 stamped
at time 0. -/
def graphC6 : LnGraph := ⟨[(1, [⟨chanC6, 7, 0⟩])]⟩

/-- C6 counterexample: at `now = 600` with a 10-minute interval, the
edge's belief age is exactly `10 * 60` — it does **not** exceed the
interval — yet `refresh_liquidity` resets it (the code's test is `<=`),
changing the belief from 7 to `htlc_max / 2 = 50` and the timestamp to
600.  The claim says an edge whose age does not exceed the interval is
left unchanged. -/
theorem refresh_boundary_counterexample :
    ¬ (600 - (0 : Nat) > 10 * 60) ∧
    graphC6.refresh_liquidity 10 600 ≠ graphC6 ∧
    (graphC6.refresh_liquidity 10 600).graph = [(1, [⟨chanC6, 50, 600⟩])] := by
  refine ⟨by decide, ?_, by decide⟩
  decide

/-- C6 (amended): `refresh_liquidity interval now` (with `now` at least
`interval` minutes past the epoch) resets exactly the edges whose belief
age is **at least** `interval` minutes — each to
`htlc-maximum-or-capacity / 2` stamped `now` — and leaves every strictly
younger edge unchanged. -/
theorem refresh_liquidity_spec (g : LnGraph) (interval now : Nat)
    (h : interval * 60 ≤ now) :
    ∀ n chans, List.lookup n g.graph = some chans →
      ∃ chans', List.lookup n (g.refresh_liquidity interval now).graph = some chans' ∧
        chans'.length = chans.length ∧
        ∀ (i : Nat) (e : DirectedChannel), chans[i]? = some e →
          ((e.timestamp + interval * 60 ≤ now →
              chans'[i]? =
                some { e with liquidity := defaultLiquidity e.channel, timestamp := now }) ∧
           (now < e.timestamp + interval * 60 → chans'[i]? = some e)) := by
  intro n chans hn
  refine ⟨chans.map fun channel =>
      if channel.timestamp ≤ now - interval * 60 then
        { channel with liquidity := defaultLiquidity channel.channel, timestamp := now }
      else channel, ?_, by simp, ?_⟩
  · have hlm := lookup_map_value (fun _ cs => cs.map fun channel =>
        if channel.timestamp ≤ now - interval * 60 then
          { channel with liquidity := defaultLiquidity channel.channel, timestamp := now }
        else channel) g.graph n
    rw [hn, Option.map_some'] at hlm
    exact hlm
  · intro i e he
    constructor <;> intro hcond <;> rw [List.getElem?_map, he, Option.map_some']
    · rw [if_pos (by omega)]
    · rw [if_neg (by omega)]

/-- Witness for C6 (amended) at the concrete boundary graph. -/
theorem refresh_liquidity_spec_witness :
    ∃ chans', List.lookup 1 (graphC6.refresh_liquidity 10 600).graph = some chans' ∧
      chans'.length = [(⟨chanC6, 7, 0⟩ : DirectedChannel)].length ∧
      ∀ (i : Nat) (e : DirectedChannel),
        [(⟨chanC6, 7, 0⟩ : DirectedChannel)][i]? = some e →
        ((e.timestamp + 10 * 60 ≤ 600 →
            chans'[i]? =
              some { e with liquidity := defaultLiquidity e.channel, timestamp := 600 }) ∧
         (600 < e.timestamp + 10 * 60 → chans'[i]? = some e)) :=
  refresh_liquidity_spec graphC6 10 600 (by decide) 1 [⟨chanC6, 7, 0⟩] (by decide)

/-! ### C8: ledger round trip -/

/-- A digit character's value is recovered by subtracting 48. -/
theorem digitChar_toNat {d : Nat} (h : d < 10) : (Nat.digitChar d).toNat - 48 = d := by
  interval_cases d <;> decide

/-- Digit characters are decimal digits. -/
theorem digitChar_isDigit {d : Nat} (h : d < 10) : (Nat.digitChar d).isDigit = true := by
  interval_cases d <;> decide

/-- Digit characters are neither quotes nor newlines. -/
theorem digitChar_ne {d : Nat} (h : d < 10) :
    Nat.digitChar d ≠ '"' ∧ Nat.digitChar d ≠ '\n' := by
  interval_cases d <;> decide

/-- Every character of a rendered number is a decimal digit. -/
theorem natChars_digits {n : Nat} : ∀ c ∈ natChars n, c.isDigit = true := by
  intro c hc
  unfold natChars at hc
  split at hc
  · simp only [List.mem_singleton] at hc
    subst hc
    decide
  · obtain ⟨d, hd, hdc⟩ := List.mem_map.mp hc
    have : d < 10 := Nat.digits_lt_base (by norm_num) (List.mem_reverse.mp hd)
    exact hdc ▸ digitChar_isDigit this

/-- A rendered number contains no quote and no newline. -/
theorem natChars_ne {n : Nat} : ∀ c ∈ natChars n, c ≠ '"' ∧ c ≠ '\n' := by
  intro c hc
  unfold natChars at hc
  split at hc
  · simp only [List.mem_singleton] at hc
    subst hc
    decide
  · obtain ⟨d, hd, hdc⟩ := List.mem_map.mp hc
    have : d < 10 := Nat.digits_lt_base (by norm_num) (List.mem_reverse.mp hd)
    exact hdc ▸ digitChar_ne this

/-- A rendered number is never empty. -/
theorem natChars_ne_nil {n : Nat} : natChars n ≠ [] := by
  unfold natChars
  split
  · simp
  · simp [Nat.digits_ne_nil_iff_ne_zero, *]

/-- Evaluating a most-significant-first digit fold. -/
theorem foldl_digit_eval (l : List Nat) (a : Nat) :
    l.foldl (fun acc d => acc * 10 + d) a = a * 10 ^ l.length + Nat.ofDigits 10 l.reverse := by
  induction l generalizing a with
  | nil => simp [Nat.ofDigits]
  | cons d rest ih =>
    simp only [List.foldl_cons, List.reverse_cons, List.length_cons]
    rw [ih, Nat.ofDigits_append]
    simp [Nat.ofDigits, pow_succ]
    ring

/-- Parsing inverts rendering for numbers. -/
theorem parseNatDigits_natChars (n : Nat) : parseNatDigits (natChars n) = n := by
  unfold natChars parseNatDigits
  split
  · rename_i h
    subst h
    rfl
  · rename_i h
    have hall : ∀ d ∈ (Nat.digits 10 n).reverse, d < 10 := fun d hd =>
      Nat.digits_lt_base (by norm_num) (List.mem_reverse.mp hd)
    rw [List.foldl_map,
      List.foldl_ext (fun acc d => acc * 10 + ((Nat.digitChar d).toNat - 48))
        (fun acc d => acc * 10 + d) 0
        (fun a b hb => by
          show a * 10 + (b.digitChar.toNat - 48) = a * 10 + b
          rw [digitChar_toNat (hall b hb)]),
      foldl_digit_eval]
    simp [Nat.ofDigits_digits]

/-- `takeWhile`/`dropWhile` split an all-satisfying prefix followed by a
failing character exactly at that character. -/
theorem takeWhile_dropWhile_app {p : Char → Bool} {xs : List Char} {y : Char} {ys : List Char}
    (hxs : ∀ c ∈ xs, p c = true) (hy : p y = false) :
    (xs ++ y :: ys).takeWhile p = xs ∧ (xs ++ y :: ys).dropWhile p = y :: ys := by
  induction xs with
  | nil => simp [List.takeWhile, List.dropWhile, hy]
  | cons x t ih =>
    have hx : p x = true := hxs x (List.mem_cons_self _ _)
    have iht := ih fun c hc => hxs c (List.mem_cons_of_mem _ hc)
    constructor
    · show List.takeWhile p (x :: (t ++ y :: ys)) = x :: t
      rw [List.takeWhile_cons_of_pos hx, iht.1]
    · show List.dropWhile p (x :: (t ++ y :: ys)) = y :: ys
      rw [List.dropWhile_cons_of_pos hx, iht.2]

/-- Expecting a rendered literal consumes exactly the literal. -/
theorem dropLit_append (lit rest : List Char) : dropLit lit (lit ++ rest) = some rest := by
  induction lit with
  | nil => rfl
  | cons c t ih => simp [dropLit, ih]

/-- `readNat` reads a rendered number up to a following non-digit
block. -/
theorem readNat_natChars (n : Nat) (y : Char) (ys : List Char) (hy : y.isDigit = false) :
    readNat (natChars n ++ y :: ys) = some (n, y :: ys) := by
  obtain ⟨h1, h2⟩ := @takeWhile_dropWhile_app Char.isDigit (natChars n) y ys
    natChars_digits hy
  have hne : (natChars n).isEmpty = false := by
    cases hx : natChars n with
    | nil => exact absurd hx natChars_ne_nil
    | cons a t => rfl
  simp only [readNat, h1, h2, hne]
  simp [parseNatDigits_natChars]

/-- `readNat` reads a rendered number up to a following literal that
starts with a non-digit. -/
theorem readNat_before_lit (n : Nat) (lit X : List Char) (y : Char) (ys : List Char)
    (hlit : lit = y :: ys) (hy : y.isDigit = false) :
    readNat (natChars n ++ (lit ++ X)) = some (n, lit ++ X) := by
  subst hlit
  rw [List.cons_append]
  exact readNat_natChars n y (ys ++ X) hy

/-- The string-field scan stops exactly at the closing quote of the
following literal. -/
theorem takeWhile_str_before_lit (xs lit X : List Char) (y : Char) (ys : List Char)
    (hlit : lit = y :: ys) (hq : ∀ c ∈ xs, (decide (c ≠ '"')) = true)
    (hy : (decide (y ≠ '"')) = false) :
    (xs ++ (lit ++ X)).takeWhile (fun c => decide (c ≠ '"')) = xs ∧
    (xs ++ (lit ++ X)).dropWhile (fun c => decide (c ≠ '"')) = lit ++ X := by
  subst hlit
  rw [List.cons_append]
  exact takeWhile_dropWhile_app hq hy

/-- Parsing one ledger line inverts serialization, provided the scid
contains no quote character. -/
theorem parseReb_serializeReb (r : SuccessReb)
    (hp : ∀ c ∈ r.channel_partner.data, c ≠ '"') :
    parseReb (serializeReb r) = some r := by
  have hq : ∀ c ∈ r.channel_partner.data, (decide (c ≠ '"')) = true := fun c hc => by
    simp [hp c hc]
  unfold parseReb serializeReb
  rw [dropLit_append]
  simp only [Option.bind_eq_bind, Option.some_bind]
  rw [readNat_before_lit r.amount_msat lit2 _ ',' _ rfl (by decide)]
  simp only [Option.some_bind]
  rw [dropLit_append]
  simp only [Option.some_bind]
  rw [readNat_before_lit r.fee_ppm lit3 _ ',' _ rfl (by decide)]
  simp only [Option.some_bind]
  rw [dropLit_append]
  simp only [Option.some_bind]
  obtain ⟨ht, hd⟩ := takeWhile_str_before_lit r.channel_partner.data lit4 _ '"' _ rfl hq
    (by decide)
  rw [ht, hd, dropLit_append]
  simp only [Option.some_bind]
  rw [readNat_before_lit r.hops lit5 _ ',' _ rfl (by decide)]
  simp only [Option.some_bind]
  rw [dropLit_append]
  simp only [Option.some_bind]
  simp only [lit6]
  rw [readNat_natChars r.completed_at '\x7d' [] (by decide)]
  simp only [Option.some_bind]
  simp [dropLit]

/-- `splitNl` splits off a newline-free line at its terminating
newline. -/
theorem splitNl_line (x : List Char) (hx : ∀ c ∈ x, c ≠ '\n') (rest : List Char) :
    splitNl (x ++ '\n' :: rest) = x :: splitNl rest := by
  induction x with
  | nil => simp [splitNl]
  | cons c t ih =>
    have hc : c ≠ '\n' := hx c (List.mem_cons_self _ _)
    have iht := ih fun d hd => hx d (List.mem_cons_of_mem _ hd)
    show splitNl (c :: (t ++ '\n' :: rest)) = (c :: t) :: splitNl rest
    rw [splitNl, if_neg hc, iht]

/-- Writing into a non-empty file appends after the existing contents. -/
theorem writeAll_append (rs : List SuccessReb) (f : List Char) :
    writeAll rs f = f ++ writeAll rs [] := by
  induction rs generalizing f with
  | nil => simp [writeAll]
  | cons r t ih =>
    show writeAll t (SuccessReb.write_to_file r f) = f ++ writeAll t (SuccessReb.write_to_file r [])
    rw [ih, ih (SuccessReb.write_to_file r [])]
    simp [SuccessReb.write_to_file, List.append_assoc]

/-- A serialized record contains no newline (given a newline-free
scid), so the ledger lines frame correctly. -/
theorem serializeReb_no_newline (r : SuccessReb)
    (hp : ∀ c ∈ r.channel_partner.data, c ≠ '\n') :
    ∀ c ∈ serializeReb r, c ≠ '\n' := by
  intro c hc
  unfold serializeReb at hc
  simp only [List.mem_append] at hc
  rcases hc with h | h | h | h | h | h | h | h | h | h | h
  · exact (by decide : ∀ c ∈ lit1, c ≠ '\n') c h
  · exact (natChars_ne c h).2
  · exact (by decide : ∀ c ∈ lit2, c ≠ '\n') c h
  · exact (natChars_ne c h).2
  · exact (by decide : ∀ c ∈ lit3, c ≠ '\n') c h
  · exact hp c h
  · exact (by decide : ∀ c ∈ lit4, c ≠ '\n') c h
  · exact (natChars_ne c h).2
  · exact (by decide : ∀ c ∈ lit5, c ≠ '\n') c h
  · exact (natChars_ne c h).2
  · exact (by decide : ∀ c ∈ lit6, c ≠ '\n') c h

/-- Splitting the written file recovers the serialized lines (plus the
trailing empty segment after the final newline). -/
theorem splitNl_writeAll (rs : List SuccessReb)
    (h : ∀ r ∈ rs, ∀ c ∈ serializeReb r, c ≠ '\n') :
    splitNl (writeAll rs []) = rs.map serializeReb ++ [[]] := by
  induction rs with
  | nil => rfl
  | cons r t ih =>
    show splitNl (writeAll t (SuccessReb.write_to_file r [])) = _
    rw [writeAll_append t _,
      show SuccessReb.write_to_file r [] ++ writeAll t [] =
        serializeReb r ++ ('\n' :: writeAll t []) from by
          simp [SuccessReb.write_to_file, List.append_assoc],
      splitNl_line _ (h r (List.mem_cons_self _ _)) _,
      ih fun x hx => h x (List.mem_cons_of_mem _ hx)]
    simp

/-- The line view of the written ledger file is exactly the serialized
records. -/
theorem linesOf_writeAll (rs : List SuccessReb)
    (h : ∀ r ∈ rs, ∀ c ∈ serializeReb r, c ≠ '\n') :
    linesOf (writeAll rs []) = rs.map serializeReb := by
  unfold linesOf
  rw [splitNl_writeAll rs h]
  simp [List.getLast?_concat, List.dropLast_concat]

/-- Parsing the serialized lines recovers the records in order. -/
theorem parseLines_map (rs : List SuccessReb)
    (h : ∀ r ∈ rs, ∀ c ∈ r.channel_partner.data, c ≠ '"') :
    parseLines (rs.map serializeReb) = some rs := by
  induction rs with
  | nil => rfl
  | cons r t ih =>
    simp only [List.map_cons, parseLines, Option.bind_eq_bind]
    rw [parseReb_serializeReb r (h r (List.mem_cons_self _ _)),
      ih fun x hx => h x (List.mem_cons_of_mem _ hx)]
    rfl

/-- C8: writing any sequence of records (whose scids, as any real scid,
contain no quote and no newline) and reading the ledger back yields
exactly those records, in write order, field for field. -/
theorem ledger_round_trip (rs : List SuccessReb)
    (h : ∀ r ∈ rs, ∀ c ∈ r.channel_partner.data, c ≠ '"' ∧ c ≠ '\n') :
    SuccessReb.read_from_file (writeAll rs []) = some rs := by
  have hnl : ∀ r ∈ rs, ∀ c ∈ serializeReb r, c ≠ '\n' := fun r hr =>
    serializeReb_no_newline r fun c hc => (h r hr c hc).2
  unfold SuccessReb.read_from_file
  rw [linesOf_writeAll rs hnl]
  exact parseLines_map rs fun r hr c hc => (h r hr c hc).1

/-- Witness for C8 with two concrete records. -/
theorem ledger_round_trip_witness :
    SuccessReb.read_from_file (writeAll
      [⟨100000, 5, "700x1x0", 3, 1700000000⟩, ⟨2, 0, "1x2x3", 1, 5⟩] []) =
      some [⟨100000, 5, "700x1x0", 3, 1700000000⟩, ⟨2, 0, "1x2x3", 1, 5⟩] :=
  ledger_round_trip _ (by decide)

end Sling
